import Mathlib

/-!
Verification of the `quantify_cirq` repository: a shallow embedding of its
counting utilities (`utils/counting_utils.py`), helper utilities
(`utils/help_utils.py`) and the test driver (`tests/test_BB_remove_T.py`),
together with theorems settling the specification claims about them.

Circuits are embedded as lists of moments; a moment is a list of operations;
an operation is either a gate operation (a gate applied to a list of qubits)
or some other, non-gate operation.  Gates carry only their identity, which is
all the counting code inspects.
-/

set_option maxRecDepth 8192

namespace QuantifyCirq

/-- Qubits are identified by a natural-number id (standing for cirq's
named qubits such as `a0`, `a1`, ...). -/
abbrev Qubit := Nat

/-- The gate identities the repository's code distinguishes: `cirq.T`,
its inverse `cirq.T**-1`, `cirq.H`, `cirq.X`, `cirq.CNOT`, `cirq.TOFFOLI`,
and any other gate. -/
inductive Gate where
  | T : Gate
  | Tdag : Gate
  | H : Gate
  | X : Gate
  | CNOT : Gate
  | TOFFOLI : Gate
  | other : Nat → Gate
deriving DecidableEq, Repr

/-- A cirq operation: either a `cirq.GateOperation` (a gate applied to
qubits) or some other kind of operation. -/
inductive Op where
  | gateOp : Gate → List Qubit → Op
  | nonGateOp : Nat → Op
deriving DecidableEq, Repr

/-- A cirq moment: the list of operations it holds. -/
abbrev Moment := List Op

/-- A cirq circuit: its list of moments. -/
abbrev Circuit := List Moment

/-- The test `isinstance(operation, cirq.GateOperation) and
operation.gate in gate_types` from `utils/counting_utils.py`. -/
def opMatches (gate_types : List Gate) : Op → Bool
  | Op.gateOp g _ => gate_types.contains g
  | Op.nonGateOp _ => false

/-- Accumulator of `count_ops`: the running `op_count`, the running
`position` counter, and the collected `ops_indices`. -/
structure OpsAcc where
  op_count : Nat
  position : Nat
  ops_indices : List Nat
deriving DecidableEq, Repr

/-- The inner loop of `count_ops` over the operations of one moment:
`position` is incremented for every operation, and on a match `op_count`
grows by one and `position` is recorded. -/
def count_ops_inner (gate_types : List Gate) : OpsAcc → Moment → OpsAcc
  | acc, [] => acc
  | acc, op :: rest =>
      let a : OpsAcc := { acc with position := acc.position + 1 }
      count_ops_inner gate_types
        (if opMatches gate_types op then
          { a with op_count := a.op_count + 1,
                   ops_indices := a.ops_indices ++ [a.position] }
         else a)
        rest

/-- `count_ops(circuit, gate_types, return_indices=True)` from
`utils/counting_utils.py`: returns the count and the positions. -/
def count_ops_with_indices (circuit : Circuit) (gate_types : List Gate) :
    Nat × List Nat :=
  let acc := circuit.foldl (count_ops_inner gate_types) ⟨0, 0, []⟩
  (acc.op_count, acc.ops_indices)

/-- `count_ops(circuit, gate_types)` from `utils/counting_utils.py` with the
default `return_indices=False`: only the count is returned. -/
def count_ops (circuit : Circuit) (gate_types : List Gate) : Nat :=
  (count_ops_with_indices circuit gate_types).1

/-- The inner loop of `count_op_depth` over the operations of one moment:
on the first matching operation the depth is incremented and the loop
breaks to the next moment. -/
def count_op_depth_inner (gate_types : List Gate) : Nat → Moment → Nat
  | d, [] => d
  | d, op :: rest =>
      if opMatches gate_types op then d + 1
      else count_op_depth_inner gate_types d rest

/-- `count_op_depth(circuit, gate_types)` from `utils/counting_utils.py`. -/
def count_op_depth (circuit : Circuit) (gate_types : List Gate) : Nat :=
  circuit.foldl (count_op_depth_inner gate_types) 0

/-- `count_num_gates(circuit)` from `utils/counting_utils.py`. -/
def count_num_gates (circuit : Circuit) : Nat :=
  circuit.foldl (fun n m => n + m.length) 0

/-- `count_t_depth_of_circuit(circuit)` from `utils/counting_utils.py`. -/
def count_t_depth_of_circuit (circuit : Circuit) : Nat :=
  count_op_depth circuit [Gate.T, Gate.Tdag]

/-- `count_t_of_circuit(circuit)` from `utils/counting_utils.py`. -/
def count_t_of_circuit (circuit : Circuit) : Nat :=
  count_ops circuit [Gate.T, Gate.Tdag]

/-- `count_h_of_circuit(circuit)` from `utils/counting_utils.py`. -/
def count_h_of_circuit (circuit : Circuit) : Nat :=
  count_ops circuit [Gate.H]

/-- `count_cnot_of_circuit(circuit)` from `utils/counting_utils.py`. -/
def count_cnot_of_circuit (circuit : Circuit) : Nat :=
  count_ops circuit [Gate.CNOT]

/-- `count_toffoli_of_circuit(circuit)` from `utils/counting_utils.py`. -/
def count_toffoli_of_circuit (circuit : Circuit) : Nat :=
  count_ops circuit [Gate.TOFFOLI]

/-- A gate operation whose gate is exactly `cirq.T` (the claim's reading of
"occurrence of the T gate"). -/
def isTOp : Op → Bool
  | Op.gateOp Gate.T _ => true
  | _ => false

/-- A gate operation whose gate is `cirq.T` or its inverse `cirq.T**-1`. -/
def isTorTdagOp : Op → Bool
  | Op.gateOp Gate.T _ => true
  | Op.gateOp Gate.Tdag _ => true
  | _ => false

/-- A gate operation whose gate is the Hadamard gate `cirq.H`. -/
def isHOp : Op → Bool
  | Op.gateOp Gate.H _ => true
  | _ => false

/-- All operations of a circuit, across all moments, in order. -/
def allOps (circuit : Circuit) : List Op :=
  circuit.flatMap (fun m => m)

theorem count_ops_inner_count (g : List Gate) (acc : OpsAcc) (m : Moment) :
    (count_ops_inner g acc m).op_count =
      acc.op_count + m.countP (opMatches g) := by
  induction m generalizing acc with
  | nil => simp [count_ops_inner]
  | cons op rest ih =>
      by_cases h : opMatches g op
      · simp [count_ops_inner, h, ih, List.countP_cons]
        omega
      · simp [count_ops_inner, h, ih, List.countP_cons]

theorem count_ops_eq_countP (circuit : Circuit) (g : List Gate) :
    count_ops circuit g = (allOps circuit).countP (opMatches g) := by
  suffices h : ∀ acc : OpsAcc,
      (circuit.foldl (count_ops_inner g) acc).op_count =
        acc.op_count + (allOps circuit).countP (opMatches g) by
    simpa [count_ops, count_ops_with_indices] using h ⟨0, 0, []⟩
  induction circuit with
  | nil => intro acc; simp [allOps]
  | cons m rest ih =>
      intro acc
      simp only [List.foldl_cons, ih, count_ops_inner_count, allOps,
        List.flatMap_cons, List.countP_append]
      omega

theorem count_op_depth_inner_eq (g : List Gate) (d : Nat) (m : Moment) :
    count_op_depth_inner g d m = d + (if m.any (opMatches g) then 1 else 0) := by
  induction m with
  | nil => simp [count_op_depth_inner]
  | cons op rest ih =>
      by_cases h : opMatches g op
      · simp [count_op_depth_inner, h]
      · simp [count_op_depth_inner, h, ih]

theorem count_op_depth_eq_countP (circuit : Circuit) (g : List Gate) :
    count_op_depth circuit g = circuit.countP (fun m => m.any (opMatches g)) := by
  suffices h : ∀ d : Nat,
      circuit.foldl (count_op_depth_inner g) d =
        d + circuit.countP (fun m => m.any (opMatches g)) by
    simpa [count_op_depth] using h 0
  induction circuit with
  | nil => intro d; simp
  | cons m rest ih =>
      intro d
      simp only [List.foldl_cons, ih, count_op_depth_inner_eq, List.countP_cons]
      by_cases h : m.any (opMatches g)
      · simp [h]; omega
      · simp [h]

/-- The Toffoli decomposition scheme identifiers used by the repository
(`ToffoliDecompType` of the `qramcircuits` package; only its enumeration
identity is needed here). -/
inductive ToffoliDecompType where
  | NO_DECOMP
  | ZERO_ANCILLA_TDEPTH_4_COMPUTE
  | ZERO_ANCILLA_TDEPTH_4
  | ZERO_ANCILLA_TDEPTH_0_UNCOMPUTE
  | FOUR_ANCILLA_TDEPTH_1_A
deriving DecidableEq, Repr

/-- Modelled from the spec: `BucketBrigadeDecompType` of the `qramcircuits`
package (not under src): a decomposition scenario holding the list of
decomposition choices (fan-in, memory stage, fan-out) and the
parallel-Toffoli flag, exactly the two constructor arguments seen at every
call site of `bb.BucketBrigadeDecompType` in the repository. -/
structure BucketBrigadeDecompType where
  decomp_types : List ToffoliDecompType
  parallel_toffolis : Bool
deriving DecidableEq, Repr

/-- `choose_decomposition(decomp_ID)` from `tests/test_BB_remove_T.py`:
builds the scenario for the IDs `'1'`, `'2'`, `'3'` and raises `ValueError`
for every other string. -/
def choose_decomposition (decomp_ID : String) :
    Except String BucketBrigadeDecompType :=
  if decomp_ID = "1" then
    Except.ok
      { decomp_types :=
          [ToffoliDecompType.ZERO_ANCILLA_TDEPTH_4_COMPUTE,
           ToffoliDecompType.ZERO_ANCILLA_TDEPTH_4,
           ToffoliDecompType.ZERO_ANCILLA_TDEPTH_0_UNCOMPUTE],
        parallel_toffolis := true }
  else if decomp_ID = "2" then
    Except.ok
      { decomp_types :=
          [ToffoliDecompType.NO_DECOMP,
           ToffoliDecompType.ZERO_ANCILLA_TDEPTH_4,
           ToffoliDecompType.NO_DECOMP],
        parallel_toffolis := true }
  else if decomp_ID = "3" then
    Except.ok
      { decomp_types :=
          [ToffoliDecompType.FOUR_ANCILLA_TDEPTH_1_A,
           ToffoliDecompType.FOUR_ANCILLA_TDEPTH_1_A,
           ToffoliDecompType.FOUR_ANCILLA_TDEPTH_1_A],
        parallel_toffolis := false }
  else
    Except.error "Decomposition scenario needs to have ID from \x7b1, 2, 3\x7d."

/-- The two Python exception kinds `state_preparation` can raise: the
explicit `ValueError`, and the `IndexError` that `qubits[i]` raises when
the index is out of range. -/
inductive PyErr where
  | valueError : String → PyErr
  | indexError : PyErr
deriving DecidableEq, Repr

/-- Modelled from the spec: a `BucketBrigade` instance of the
`qramcircuits` package (not under src), reduced to the two attributes
`state_preparation` reads and writes: `qubits`, its addressing qubits,
and `circuit`, its cirq circuit (a list of moments). -/
structure BucketBrigade where
  qubits : List Qubit
  circuit : Circuit
deriving DecidableEq, Repr

/-- The loop of `state_preparation` from `tests/test_BB_remove_T.py`
building `init_ops`: walking `initial_state` with index `i`, it raises
`ValueError` on a character other than `'0'` and `'1'`, and on `'1'`
appends `cirq.X(qubits[i])`, raising `IndexError` when `i` is out of
range of `qubits`. -/
def init_ops (qubits : List Qubit) : List Char → Nat → Except PyErr (List Op)
  | [], _ => Except.ok []
  | b :: rest, i =>
      if ¬ (b = '0' ∨ b = '1') then
        Except.error (PyErr.valueError "Initial state must consist of 0s or 1s")
      else if b = '1' then
        match qubits[i]? with
        | none => Except.error PyErr.indexError
        | some q =>
            (init_ops qubits rest (i + 1)).map
              (fun ops => Op.gateOp Gate.X [q] :: ops)
      else
        init_ops qubits rest (i + 1)

/-- `state_preparation(circuit, initial_state)` from
`tests/test_BB_remove_T.py`.  The result pairs the outcome (the raised
exception, if any) with the circuit's final state: the only mutation,
`circuit.circuit.moments.insert(0, cirq.Moment(init_ops))`, happens after
the whole loop, so on an exception the circuit is whatever it was on
entry. -/
def state_preparation (circuit : BucketBrigade) (initial_state : List Char) :
    Except PyErr Unit × BucketBrigade :=
  match init_ops circuit.qubits initial_state 0 with
  | Except.error e => (Except.error e, circuit)
  | Except.ok ops =>
      (Except.ok (),
       { circuit with circuit := ops :: circuit.circuit })

/-- Whether an outcome is a raised `ValueError`. -/
def isValueError : Except PyErr Unit → Bool
  | Except.error (PyErr.valueError _) => true
  | _ => false

/-- Whether an outcome is a raised exception of any kind. -/
def isRaised : Except PyErr Unit → Bool
  | Except.error _ => true
  | _ => false

/-- The moment the claim says `state_preparation` prepends: an X gate on
`qubits[i]` for each position `i` where `initial_state[i]` is `'1'`, in
order of position. -/
def initMomentSpec (qubits : List Qubit) (initial_state : List Char) : Moment :=
  (initial_state.zip qubits).filterMap
    (fun p => if p.1 = '1' then some (Op.gateOp Gate.X [p.2]) else none)

/-- `create_binary_strings`'s `itertools.product([0, 1], repeat=n)`:
all length-`n` tuples over `[0, 1]`, first coordinate outermost (the last
coordinate varies fastest), which is lexicographic order. -/
def product01 : Nat → List (List Nat)
  | 0 => [[]]
  | n + 1 =>
      ((product01 n).map (fun t => 0 :: t)) ++
        ((product01 n).map (fun t => 1 :: t))

/-- The string-building loop of `create_binary_strings`:
`string = string + str(i)` over the digits of one tuple (the digits
produced by `product([0, 1], ...)` are 0 and 1). -/
def item_to_string (item : List Nat) : List Char :=
  item.foldl (fun s i => s ++ [if i = 0 then '0' else '1']) []

/-- `create_binary_strings(n)` from `utils/help_utils.py`. -/
def create_binary_strings (n : Nat) : List (List Char) :=
  (product01 n).map item_to_string

theorem init_ops_ok_of_valid (qubits : List Qubit) (s : List Char) (i : Nat)
    (hlen : i + s.length ≤ qubits.length)
    (hval : ∀ c ∈ s, c = '0' ∨ c = '1') :
    init_ops qubits s i =
      Except.ok
        ((s.zip (qubits.drop i)).filterMap
          (fun p => if p.1 = '1' then some (Op.gateOp Gate.X [p.2]) else none)) := by
  induction s generalizing i with
  | nil => simp [init_ops]
  | cons b rest ih =>
      have hi : i < qubits.length := by
        simp only [List.length_cons] at hlen; omega
      have hb : b = '0' ∨ b = '1' := hval b (List.mem_cons_self b rest)
      have hrest : ∀ c ∈ rest, c = '0' ∨ c = '1' :=
        fun c hc => hval c (List.mem_cons_of_mem b hc)
      have hlen' : i + 1 + rest.length ≤ qubits.length := by
        simp only [List.length_cons] at hlen; omega
      rcases hb with hb | hb
      · subst hb
        simp [init_ops, ih (i + 1) hlen' hrest,
          List.drop_eq_getElem_cons hi, -List.getElem_cons_drop]
      · subst hb
        simp [init_ops, ih (i + 1) hlen' hrest,
          List.drop_eq_getElem_cons hi, -List.getElem_cons_drop,
          List.getElem?_eq_getElem hi, Except.map]

theorem init_ops_valueError_of_bad (qubits : List Qubit) (s : List Char) (i : Nat)
    (hlen : i + s.length ≤ qubits.length)
    (hbad : ∃ c ∈ s, ¬ (c = '0' ∨ c = '1')) :
    ∃ msg, init_ops qubits s i = Except.error (PyErr.valueError msg) := by
  induction s generalizing i with
  | nil => simp at hbad
  | cons b rest ih =>
      have hi : i < qubits.length := by
        simp only [List.length_cons] at hlen; omega
      have hlen' : i + 1 + rest.length ≤ qubits.length := by
        simp only [List.length_cons] at hlen; omega
      by_cases hb : b = '0' ∨ b = '1'
      · have hbad' : ∃ c ∈ rest, ¬ (c = '0' ∨ c = '1') := by
          rcases hbad with ⟨c, hc, hcbad⟩
          rcases List.mem_cons.mp hc with rfl | hc'
          · exact absurd hb hcbad
          · exact ⟨c, hc', hcbad⟩
        rcases hb with hb | hb
        · subst hb
          simpa [init_ops] using ih (i + 1) hlen' hbad'
        · subst hb
          have hget : qubits[i]? = some qubits[i] := List.getElem?_eq_getElem hi
          rcases ih (i + 1) hlen' hbad' with ⟨msg, hmsg⟩
          exact ⟨msg, by simp [init_ops, hget, hmsg, Except.map]⟩
      · exact ⟨"Initial state must consist of 0s or 1s", by simp [init_ops, hb]⟩

/-- The character `str(i)` written by the string-building loop for the
digits 0 and 1. -/
def bit_char (i : Nat) : Char :=
  if i = 0 then '0' else '1'

theorem item_to_string_go (item : List Nat) (acc : List Char) :
    item.foldl (fun s i => s ++ [if i = 0 then '0' else '1']) acc =
      acc ++ item.map bit_char := by
  induction item generalizing acc with
  | nil => simp
  | cons i rest ih => simp [ih, bit_char]

theorem item_to_string_eq_map (item : List Nat) :
    item_to_string item = item.map bit_char := by
  simpa using item_to_string_go item []

theorem product01_length (n : Nat) : (product01 n).length = 2 ^ n := by
  induction n with
  | zero => rfl
  | succ n ih => simp [product01, ih, pow_succ]; omega

theorem product01_mem (n : Nat) :
    ∀ t ∈ product01 n, t.length = n ∧ ∀ i ∈ t, i = 0 ∨ i = 1 := by
  induction n with
  | zero =>
      intro t ht
      simp only [product01, List.mem_singleton] at ht
      subst ht; simp
  | succ n ih =>
      intro t ht
      simp only [product01, List.mem_append, List.mem_map] at ht
      rcases ht with ⟨u, hu, rfl⟩ | ⟨u, hu, rfl⟩ <;>
        rcases ih u hu with ⟨hlen, hmem⟩
      · refine ⟨by simp [hlen], ?_⟩
        intro i hi
        rcases List.mem_cons.mp hi with rfl | hi'
        · exact Or.inl rfl
        · exact hmem i hi'
      · refine ⟨by simp [hlen], ?_⟩
        intro i hi
        rcases List.mem_cons.mp hi with rfl | hi'
        · exact Or.inr rfl
        · exact hmem i hi'

theorem product01_pairwise (n : Nat) :
    (product01 n).Pairwise
      (fun a b => List.Lex (· < ·) (a.map bit_char) (b.map bit_char)) := by
  induction n with
  | zero => simp [product01]
  | succ n ih =>
      simp only [product01]
      rw [List.pairwise_append]
      refine ⟨?_, ?_, ?_⟩
      · rw [List.pairwise_map]
        exact ih.imp (fun h => by simpa using List.Lex.cons h)
      · rw [List.pairwise_map]
        exact ih.imp (fun h => by simpa using List.Lex.cons h)
      · intro a ha b hb
        rcases List.mem_map.mp ha with ⟨u, _, rfl⟩
        rcases List.mem_map.mp hb with ⟨v, _, rfl⟩
        simp only [List.map_cons]
        exact List.Lex.rel (by decide)

theorem lex_lt_irrefl (l : List Char) : ¬ List.Lex (· < ·) l l := by
  induction l with
  | nil => intro h; cases h
  | cons a l ih =>
      intro h
      cases h with
      | cons h => exact ih h
      | rel h => exact lt_irrefl _ h

theorem opMatches_T_Tdag : opMatches [Gate.T, Gate.Tdag] = isTorTdagOp := by
  funext op
  rcases op with ⟨g, qs⟩ | n
  · cases g <;> rfl
  · rfl

theorem opMatches_H_eq : opMatches [Gate.H] = isHOp := by
  funext op
  rcases op with ⟨g, qs⟩ | n
  · cases g <;> rfl
  · rfl

/-- C1: for every circuit and every list of gate types, `count_ops` walks
the circuit moment by moment and returns the total number of operations,
across all moments, that are gate operations whose gate is a member of the
given gate-type list; operations whose gate is not in the list contribute
nothing to the count. -/
theorem claim_C1_count_ops (circuit : Circuit) (gate_types : List Gate) :
    count_ops circuit gate_types = (allOps circuit).countP (opMatches gate_types) :=
  count_ops_eq_countP circuit gate_types

/-- C2: for every circuit and every list of gate types, `count_op_depth`
returns the number of moments of the circuit that contain at least one gate
operation whose gate is in the list, each such moment counted exactly once
no matter how many matching operations it contains. -/
theorem claim_C2_count_op_depth (circuit : Circuit) (gate_types : List Gate) :
    count_op_depth circuit gate_types =
      circuit.countP (fun m => m.any (opMatches gate_types)) :=
  count_op_depth_eq_countP circuit gate_types

/-- A circuit consisting of a single moment holding one application of the
inverse T gate (`cirq.T**-1`). -/
def t_dagger_only_circuit : Circuit := [[Op.gateOp Gate.Tdag [0]]]

/-- C3 counterexample: on a circuit holding a single inverse-T operation,
`count_t_of_circuit` returns 1 although the T gate itself occurs 0 times,
so it is not the number of occurrences of the T gate. -/
theorem claim_C3_counterexample :
    count_t_of_circuit t_dagger_only_circuit ≠
      (allOps t_dagger_only_circuit).countP isTOp := by
  decide

/-- C3 (amended): for every circuit, `count_t_of_circuit` returns the
number of gate operations whose gate is the T gate or its inverse. -/
theorem claim_C3_amended (circuit : Circuit) :
    count_t_of_circuit circuit = (allOps circuit).countP isTorTdagOp := by
  rw [count_t_of_circuit, count_ops_eq_countP, opMatches_T_Tdag]

/-- C4: for every circuit, `count_t_depth_of_circuit` equals the number of
moments containing at least one operation whose gate is T or the inverse
of T. -/
theorem claim_C4_count_t_depth (circuit : Circuit) :
    count_t_depth_of_circuit circuit =
      circuit.countP (fun m => m.any isTorTdagOp) := by
  rw [count_t_depth_of_circuit, count_op_depth_eq_countP, opMatches_T_Tdag]

/-- C7: for every circuit, `count_h_of_circuit` returns the number of gate
operations whose gate is the Hadamard gate `cirq.H`. -/
theorem claim_C7_count_h (circuit : Circuit) :
    count_h_of_circuit circuit = (allOps circuit).countP isHOp := by
  rw [count_h_of_circuit, count_ops_eq_countP, opMatches_H_eq]

/-- C5: for every string, `choose_decomposition` returns a decomposition
scenario of exactly three decomposition choices (fan-in, memory stage,
fan-out) together with the parallel-Toffoli flag when the string is `'1'`,
`'2'` or `'3'`, and raises `ValueError` for every other string. -/
theorem claim_C5_choose_decomposition (decomp_ID : String) :
    ((decomp_ID = "1" ∨ decomp_ID = "2" ∨ decomp_ID = "3") ∧
      ∃ sc, choose_decomposition decomp_ID = Except.ok sc ∧
        sc.decomp_types.length = 3) ∨
    (¬ (decomp_ID = "1" ∨ decomp_ID = "2" ∨ decomp_ID = "3") ∧
      choose_decomposition decomp_ID =
        Except.error
          "Decomposition scenario needs to have ID from \x7b1, 2, 3\x7d.") := by
  by_cases h1 : decomp_ID = "1"
  · subst h1
    exact Or.inl ⟨Or.inl rfl, ⟨_, rfl, rfl⟩⟩
  by_cases h2 : decomp_ID = "2"
  · subst h2
    exact Or.inl ⟨Or.inr (Or.inl rfl), ⟨_, rfl, rfl⟩⟩
  by_cases h3 : decomp_ID = "3"
  · subst h3
    exact Or.inl ⟨Or.inr (Or.inr rfl), ⟨_, rfl, rfl⟩⟩
  · refine Or.inr ⟨?_, by simp [choose_decomposition, h1, h2, h3]⟩
    rintro (h | h | h) <;> contradiction

/-- A bucket-brigade circuit with two addressing qubits and no moments. -/
def two_qubit_circuit : BucketBrigade := ⟨[0, 1], []⟩

/-- An initial state longer than the qubit list, with a `'1'` at an
out-of-range position before its first illegal character. -/
def overlong_initial_state : List Char := ['0', '1', '1', '2']

/-- C8 counterexample: on a two-qubit circuit and the state `"0112"`, the
indexing `qubits[2]` raises `IndexError` before the illegal character `'2'`
is reached, so `state_preparation` does not raise `ValueError` although the
state contains a character other than `'0'` and `'1'`. -/
theorem claim_C8_counterexample :
    ¬ ((isValueError (state_preparation two_qubit_circuit overlong_initial_state).1
          = true ↔
        ∃ ch ∈ overlong_initial_state, ¬ (ch = '0' ∨ ch = '1')) ∧
       (isRaised (state_preparation two_qubit_circuit overlong_initial_state).1
          = true →
        (state_preparation two_qubit_circuit overlong_initial_state).2 =
          two_qubit_circuit)) := by
  decide

/-- C8 (amended): for every circuit and every initial state no longer than
the circuit's qubit list, `state_preparation` raises `ValueError` if and
only if the initial state contains a character other than `'0'` and `'1'`,
and when it raises, the circuit is left unchanged: no moment has been
inserted. -/
theorem claim_C8_amended (c : BucketBrigade) (s : List Char)
    (hlen : s.length ≤ c.qubits.length) :
    (isValueError (state_preparation c s).1 = true ↔
      ∃ ch ∈ s, ¬ (ch = '0' ∨ ch = '1')) ∧
    (isRaised (state_preparation c s).1 = true →
      (state_preparation c s).2 = c) := by
  constructor
  · by_cases hbad : ∃ ch ∈ s, ¬ (ch = '0' ∨ ch = '1')
    · obtain ⟨msg, hmsg⟩ :=
        init_ops_valueError_of_bad c.qubits s 0 (by simpa using hlen) hbad
      exact iff_of_true (by simp [state_preparation, hmsg, isValueError]) hbad
    · have hval : ∀ ch ∈ s, ch = '0' ∨ ch = '1' := by
        intro ch hch
        by_contra hc
        exact hbad ⟨ch, hch, hc⟩
      have h := init_ops_ok_of_valid c.qubits s 0 (by simpa using hlen) hval
      exact iff_of_false (by simp [state_preparation, h, isValueError]) hbad
  · intro hr
    cases h : init_ops c.qubits s 0 with
    | error e => simp [state_preparation, h]
    | ok ops => simp [state_preparation, h, isRaised] at hr

/-- C8 witness: a concrete two-qubit circuit and a valid two-character
state satisfying the length hypothesis of the amended claim. -/
theorem claim_C8_witness :
    (['0', '1'] : List Char).length ≤ two_qubit_circuit.qubits.length ∧
    ((isValueError (state_preparation two_qubit_circuit ['0', '1']).1 = true ↔
        ∃ ch ∈ (['0', '1'] : List Char), ¬ (ch = '0' ∨ ch = '1')) ∧
     (isRaised (state_preparation two_qubit_circuit ['0', '1']).1 = true →
        (state_preparation two_qubit_circuit ['0', '1']).2 = two_qubit_circuit)) :=
  ⟨by decide, claim_C8_amended two_qubit_circuit ['0', '1'] (by decide)⟩

/-- C9: for every circuit and every initial state over `'0'` and `'1'` no
longer than the circuit's qubit list, `state_preparation` succeeds and
returns the circuit with exactly one new moment at index 0 holding an X
gate on `qubits[i]` for each position `i` where the state has `'1'`, every
pre-existing moment unchanged after it. -/
theorem claim_C9_state_preparation (c : BucketBrigade) (s : List Char)
    (hval : ∀ ch ∈ s, ch = '0' ∨ ch = '1')
    (hlen : s.length ≤ c.qubits.length) :
    state_preparation c s =
      (Except.ok (), ⟨c.qubits, initMomentSpec c.qubits s :: c.circuit⟩) := by
  have h := init_ops_ok_of_valid c.qubits s 0 (by simpa using hlen) hval
  simp [state_preparation, h, initMomentSpec]

/-- C9 witness: a concrete circuit with two qubits and one pre-existing
moment, prepared with the state `"10"`. -/
theorem claim_C9_witness :
    (∀ ch ∈ (['1', '0'] : List Char), ch = '0' ∨ ch = '1') ∧
    (['1', '0'] : List Char).length ≤
      (⟨[5, 7], [[Op.nonGateOp 0]]⟩ : BucketBrigade).qubits.length ∧
    state_preparation ⟨[5, 7], [[Op.nonGateOp 0]]⟩ ['1', '0'] =
      (Except.ok (),
        ⟨[5, 7], initMomentSpec [5, 7] ['1', '0'] :: [[Op.nonGateOp 0]]⟩) :=
  ⟨by decide, by decide,
    claim_C9_state_preparation ⟨[5, 7], [[Op.nonGateOp 0]]⟩ ['1', '0']
      (by decide) (by decide)⟩

/-- C10: for every n, `create_binary_strings` returns exactly 2 ^ n
strings, each of length n over the characters `'0'` and `'1'`, pairwise
distinct, in ascending binary-counting (lexicographic) order. -/
theorem claim_C10_create_binary_strings (n : Nat) :
    (create_binary_strings n).length = 2 ^ n ∧
    (∀ s ∈ create_binary_strings n,
      s.length = n ∧ ∀ c ∈ s, c = '0' ∨ c = '1') ∧
    (create_binary_strings n).Nodup ∧
    (create_binary_strings n).Pairwise (fun a b => List.Lex (· < ·) a b) := by
  have hpair : (create_binary_strings n).Pairwise
      (fun a b => List.Lex (· < ·) a b) := by
    rw [create_binary_strings, List.pairwise_map]
    have := product01_pairwise n
    exact this.imp (fun h => by simpa [item_to_string_eq_map] using h)
  refine ⟨?_, ?_, ?_, hpair⟩
  · simp [create_binary_strings, product01_length]
  · intro s hs
    rcases List.mem_map.mp hs with ⟨t, ht, rfl⟩
    rcases product01_mem n t ht with ⟨hlen, hmem⟩
    rw [item_to_string_eq_map]
    refine ⟨by simp [hlen], ?_⟩
    intro ch hch
    rcases List.mem_map.mp hch with ⟨i, hi, rfl⟩
    rcases hmem i hi with rfl | rfl
    · exact Or.inl rfl
    · exact Or.inr rfl
  · refine hpair.imp ?_
    intro a b hab he
    subst he
    exact lex_lt_irrefl a hab

end QuantifyCirq
